import Mathlib

/-!
Verification of the queue-record updater (`scripts/lint-queue-update.py`).

The program is a single linear read-modify-write over a tab-separated text
file.  We embed it shallowly: Python strings become `List Char`,
`str.split("\t")` becomes `List.splitOn '\t'`, `"\t".join` becomes
`List.intercalate ['\t']`, and the whole-file round trip (`read_text` /
`splitlines` / `write_text`) is modelled by explicit `splitlines` /
`List.intercalate ['\n']` functions on character lists.  Exit codes and
the write/stderr side effects are collected in a `RunResult` record.
-/

namespace LintQueueUpdate

/-- The whitespace predicate of Python `str.strip` / `str.isspace`,
restricted to the ASCII whitespace characters. -/
def pyIsSpace (c : Char) : Bool :=
  c = ' ' || c = '\t' || c = '\n' || c = '\x0b' || c = '\x0c' || c = '\r'

/-- The full set of line-boundary characters of Python `str.splitlines`
(LF, CR, VT, FF, FS, GS, RS, NEL, LINE SEPARATOR, PARAGRAPH SEPARATOR; a
CRLF pair counts as one boundary).  Used to phrase argument-hygiene
hypotheses under which the `\n`/`\r\n`/`\r`-restricted `splitlines` below
coincides with the Python function on every string the program re-reads. -/
def pyIsLineBreak (c : Char) : Bool :=
  c = '\n' || c = '\r' || c = '\x0b' || c = '\x0c' || c = '\x1c' || c = '\x1d' ||
  c = '\x1e' || c = '\x85' || c = '\u2028' || c = '\u2029'

/-- The full whitespace set of Python `str.strip` / `str.isspace`: every
line-boundary character plus space, tab, US, NBSP, OGHAM SPACE MARK,
U+2000 to U+200A, NARROW NBSP, MEDIUM MATHEMATICAL SPACE and IDEOGRAPHIC
SPACE.  Used to phrase hypotheses under which the ASCII-restricted
`pyIsSpace` classification agrees with Python on the rewritten lines. -/
def pyIsSpaceFull (c : Char) : Bool :=
  pyIsLineBreak c || c = ' ' || c = '\t' || c = '\x1f' || c = '\xa0' ||
  c = '\u1680' || (0x2000 ≤ c.toNat && c.toNat ≤ 0x200a) || c = '\u202f' ||
  c = '\u205f' || c = '\u3000'

/-- Embedding of `line.startswith("#")` on a character list. -/
def startsWithHash : List Char → Bool
  | '#' :: _ => true
  | _ => false

/-- The guard `line.startswith("#") or not line.strip()` from the main loop:
a comment line or a line whose characters are all whitespace. -/
def isCommentOrBlank (line : List Char) : Bool :=
  startsWithHash line || line.all pyIsSpace

/-- The padding step `if len(parts) < 6: parts += [""] * (6 - len(parts))`. -/
def pad6 (parts : List (List Char)) : List (List Char) :=
  if parts.length < 6 then parts ++ List.replicate (6 - parts.length) [] else parts

/-- One iteration of the `for line in lines` loop: returns the emitted
output line together with whether this line matched `task_id`. -/
def processLine (task_id status commit note line : List Char) : List Char × Bool :=
  if isCommentOrBlank line then
    (line, false)
  else
    let parts := pad6 (line.splitOn '\t')
    if parts.getD 1 [] = task_id then
      (['\t'].intercalate ((((parts.set 0 status).set 4 commit).set 5 note).take 6), true)
    else
      (['\t'].intercalate (parts.take 6), false)

/-- The whole loop over `lines`: the list `updated` and the `found` flag. -/
def updateLines (task_id status commit note : List Char) :
    List (List Char) → List (List Char) × Bool
  | [] => ([], false)
  | line :: rest =>
    let p := processLine task_id status commit note line
    let r := updateLines task_id status commit note rest
    (p.1 :: r.1, p.2 || r.2)

/-- Python `str.splitlines` (restricted to the `\n`, `\r\n` and `\r`
line boundaries), accumulator-based. -/
def splitlinesAux : List Char → List Char → List (List Char)
  | [], acc => if acc = [] then [] else [acc.reverse]
  | '\r' :: '\n' :: rest, acc => acc.reverse :: splitlinesAux rest []
  | '\n' :: rest, acc => acc.reverse :: splitlinesAux rest []
  | '\r' :: rest, acc => acc.reverse :: splitlinesAux rest []
  | c :: rest, acc => splitlinesAux rest (c :: acc)

/-- Python `content.splitlines()` (restricted to `\n`, `\r\n`, `\r`). -/
def splitlines (content : List Char) : List (List Char) :=
  splitlinesAux content []

/-- The file-content transformation of a run that got past argument
parsing: `none` models the not-found path (exit 1, no write), `some out`
models the success path where `out` ( `"\n".join(updated) + "\n"` ) is
written back. -/
def update (content task_id status commit note : List Char) : Option (List Char) :=
  let r := updateLines task_id status commit note (splitlines content)
  if r.2 then some (['\n'].intercalate r.1 ++ ['\n']) else none

/-- Usage string printed on missing arguments. -/
def usageMsg : List Char :=
  "Usage: lint-queue-update.py <queue> <id> <status> <commit> <note>".data

/-- Observable outcome of one invocation: the exit code, the content
written to the queue file (`none` = no write occurred), and the line
printed to the error stream (`none` = nothing printed). -/
structure RunResult where
  exitCode : Nat
  written : Option (List Char)
  stderrLine : Option (List Char)
deriving Repr, DecidableEq

/-- The whole `main`: `argv` is `sys.argv` (program name included) and
`content` is the text the file read would return. -/
def run (argv : List (List Char)) (content : List Char) : RunResult :=
  if argv.length < 6 then
    { exitCode := 2, written := none, stderrLine := some usageMsg }
  else
    match update content (argv.getD 2 []) (argv.getD 3 []) (argv.getD 4 []) (argv.getD 5 []) with
    | some out => { exitCode := 0, written := some out, stderrLine := none }
    | none =>
        { exitCode := 1, written := none,
          stderrLine := some ("Task id not found: ".data ++ argv.getD 2 []) }

/-- A line that the loop would treat as a matching record: a non-comment,
non-blank line whose padded field 1 equals `task_id`. -/
def lineMatches (task_id line : List Char) : Bool :=
  !isCommentOrBlank line && decide ((pad6 (line.splitOn '\t')).getD 1 [] = task_id)

/-! ### Basic lemmas about the loop body -/

theorem processLine_snd (t s c n l : List Char) :
    (processLine t s c n l).2 = lineMatches t l := by
  unfold processLine lineMatches
  by_cases h1 : isCommentOrBlank l
  · simp [h1]
  · by_cases h2 : (pad6 (l.splitOn '\t')).getD 1 [] = t
    · simp only [List.getD_eq_getElem?_getD] at h2
      simp [h1, h2]
    · simp only [List.getD_eq_getElem?_getD] at h2
      simp [h1, h2]

theorem updateLines_eq (t s c n : List Char) (lines : List (List Char)) :
    updateLines t s c n lines
      = (lines.map fun l => (processLine t s c n l).1,
         lines.any fun l => lineMatches t l) := by
  induction lines with
  | nil => rfl
  | cons hd tl ih => simp [updateLines, ih, processLine_snd]

theorem pad6_length (parts : List (List Char)) : 6 ≤ (pad6 parts).length := by
  unfold pad6
  by_cases h : parts.length < 6
  · simp [h]
    omega
  · simp [h]
    omega

theorem splitOn_ne_nil (x : Char) (l : List Char) : l.splitOn x ≠ [] :=
  List.splitOnP_ne_nil _ l

/-! ### Claim theorems -/

/-- C7: with fewer than 5 positional arguments (fewer than 6 `argv` entries,
program name included) the run prints the usage message to the error stream,
exits with code 2, performs no write, and its outcome does not depend on the
file content at all (the file is never consulted). -/
theorem missing_args_usage (argv : List (List Char)) (content content2 : List Char)
    (h : argv.length < 6) :
    run argv content = ⟨2, none, some usageMsg⟩ ∧ run argv content = run argv content2 := by
  unfold run
  simp [h]

/-- Witness for `missing_args_usage` at a concrete two-entry `argv`. -/
theorem missing_args_usage_witness :
    run ["lint-queue-update.py".data, "queue.tsv".data] "pending\tT1\n".data
      = ⟨2, none, some usageMsg⟩ :=
  (missing_args_usage ["lint-queue-update.py".data, "queue.tsv".data]
    "pending\tT1\n".data "x".data (by decide)).1

/-- C9: a line made only of whitespace characters (tabs included) is
classified blank by the loop guard: it is emitted verbatim and never counts
as a match, whatever `task_id` (the empty string included) and the other
arguments are. -/
theorem whitespace_line_verbatim (t s c n line : List Char)
    (h : line.all pyIsSpace = true) :
    processLine t s c n line = (line, false) ∧ lineMatches t line = false := by
  have hcb : isCommentOrBlank line = true := by
    unfold isCommentOrBlank
    simp [h]
  constructor
  · unfold processLine
    simp [hcb]
  · unfold lineMatches
    simp [hcb]

/-- Witness for `whitespace_line_verbatim` on a tabs-and-spaces line with the
empty `task_id`. -/
theorem whitespace_line_verbatim_witness :
    processLine [] "done".data "c".data "n".data "\t \t".data = ("\t \t".data, false) :=
  (whitespace_line_verbatim [] "done".data "c".data "n".data "\t \t".data (by decide)).1

/-- C10: with the empty `task_id`, a record line (no `#`, not blank) that has
fewer than two tab-separated fields is padded so that its field 1 is the empty
string, hence matches, and is rewritten to
`status ++ "\t\t\t\t" ++ commit ++ "\t" ++ note` (its original token is
replaced by `status`). -/
theorem empty_id_matches_short_record (s c n line : List Char)
    (hh : startsWithHash line = false)
    (hb : line.all pyIsSpace = false)
    (hf : (line.splitOn '\t').length < 2) :
    processLine [] s c n line = (['\t'].intercalate [s, [], [], [], c, n], true) := by
  have h1 : (line.splitOn '\t').length = 1 := by
    have h0 : line.splitOn '\t' ≠ [] := splitOn_ne_nil '\t' line
    have := List.length_pos.mpr h0
    omega
  obtain ⟨p, hp⟩ := List.length_eq_one.mp h1
  have hcb : isCommentOrBlank line = false := by
    unfold isCommentOrBlank
    simp [hh, hb]
  unfold processLine
  rw [hp]
  simp [hcb, pad6]

/-- Witness for `empty_id_matches_short_record` on the single-token line
`"orphan"`. -/
theorem empty_id_matches_short_record_witness :
    processLine [] "done".data "c".data "n".data "orphan".data
      = ("done\t\t\t\tc\tn".data, true) :=
  (empty_id_matches_short_record "done".data "c".data "n".data "orphan".data
    (by decide) (by decide) (by decide)).trans (by decide)

/-- C1: when no record line of the file has `task_id` in its padded field 1,
the run exits with code 1, prints the diagnostic naming `task_id` to the
error stream, and writes nothing, so the file is left byte-for-byte
unchanged. -/
theorem no_match_exit1 (prog path task_id status commit note content : List Char)
    (h : ∀ l ∈ splitlines content, lineMatches task_id l = false) :
    run [prog, path, task_id, status, commit, note] content
      = ⟨1, none, some ("Task id not found: ".data ++ task_id)⟩ := by
  have hupd : update content task_id status commit note = none := by
    unfold update
    rw [updateLines_eq]
    have hany : ((splitlines content).any fun l => lineMatches task_id l) = false := by
      rw [List.any_eq_false]
      intro x hx
      simp [h x hx]
    simp [hany]
  unfold run
  simp [List.getD, hupd]

/-- Witness for `no_match_exit1`: looking up `T9` in a file whose only record
is `T1`. -/
theorem no_match_exit1_witness :
    run ["lint-queue-update.py".data, "queue.tsv".data, "T9".data, "done".data,
         "abc123".data, "n".data] "# queue\npending\tT1\ta\tb\t\t\n".data
      = ⟨1, none, some "Task id not found: T9".data⟩ :=
  (no_match_exit1 "lint-queue-update.py".data "queue.tsv".data "T9".data "done".data
    "abc123".data "n".data "# queue\npending\tT1\ta\tb\t\t\n".data (by decide)).trans
    (by decide)

/-- C6: every comment or blank line of the input is emitted verbatim at the
same position (the output has one line per input line), whatever the
arguments are and whether or not any record matches. -/
theorem comment_blank_preserved (t s c n : List Char) (lines : List (List Char)) (i : Nat)
    (hi : i < lines.length)
    (hcb : isCommentOrBlank (lines.getD i []) = true) :
    (updateLines t s c n lines).1.length = lines.length
    ∧ (updateLines t s c n lines).1.getD i [] = lines.getD i [] := by
  rw [updateLines_eq]
  have hge : lines[i]? = some lines[i] := List.getElem?_eq_getElem hi
  have hcb' : isCommentOrBlank lines[i] = true := by
    rwa [List.getD_eq_getElem?_getD, hge] at hcb
  refine ⟨by simp, ?_⟩
  simp only [List.getD_eq_getElem?_getD, List.getElem?_map, hge, Option.map_some']
  show (processLine t s c n lines[i]).1 = lines[i]
  unfold processLine
  simp [hcb']

/-- Witness for `comment_blank_preserved`: the comment header of a two-line
file survives an update of the other line. -/
theorem comment_blank_preserved_witness :
    (updateLines "T1".data "done".data "c".data "n".data
        ["# queue".data, "pending\tT1\ta\tb\t\t".data]).1.getD 0 [] = "# queue".data :=
  (comment_blank_preserved "T1".data "done".data "c".data "n".data
    ["# queue".data, "pending\tT1\ta\tb\t\t".data] 0 (by decide) (by decide)).2

/-- C4: the worked scenario from the spec. Updating `T2` to `done/abc123/fixed bug`
keeps the header and the `T1` line unchanged, rewrites the `T2` line, appends
a trailing newline, exits 0. -/
theorem scenario_update_T2 :
    run ["lint-queue-update.py".data, "queue.tsv".data, "T2".data, "done".data,
         "abc123".data, "fixed bug".data]
        "# queue\npending\tT1\ta\tb\t\t\npending\tT2\tx\ty\t\t\n".data
      = ⟨0, some "# queue\npending\tT1\ta\tb\t\t\ndone\tT2\tx\ty\tabc123\tfixed bug\n".data,
         none⟩ := by
  decide

theorem take6_set (st cm nt : List Char) (parts : List (List Char))
    (h : 6 ≤ parts.length) :
    (((parts.set 0 st).set 4 cm).set 5 nt).take 6
      = [st, parts.getD 1 [], parts.getD 2 [], parts.getD 3 [], cm, nt] :=
  match parts, h with
  | _ :: _ :: _ :: _ :: _ :: _ :: _, _ => rfl

theorem processLine_of_commentOrBlank (t s c n l : List Char)
    (hcb : isCommentOrBlank l = true) :
    processLine t s c n l = (l, false) := by
  unfold processLine
  simp [hcb]

theorem processLine_of_match (t s c n l : List Char) (hm : lineMatches t l = true) :
    processLine t s c n l
      = (['\t'].intercalate
          [s, (pad6 (l.splitOn '\t')).getD 1 [], (pad6 (l.splitOn '\t')).getD 2 [],
           (pad6 (l.splitOn '\t')).getD 3 [], c, n], true) := by
  unfold lineMatches at hm
  rw [Bool.and_eq_true] at hm
  obtain ⟨hcb, hid⟩ := hm
  rw [Bool.not_eq_true'] at hcb
  rw [decide_eq_true_eq] at hid
  unfold processLine
  simp only [List.getD_eq_getElem?_getD] at hid
  simp [hcb, hid, take6_set s c n (pad6 (l.splitOn '\t')) (pad6_length (l.splitOn '\t'))]

theorem processLine_of_nomatch (t s c n l : List Char)
    (hcb : isCommentOrBlank l = false)
    (hid : (pad6 (l.splitOn '\t')).getD 1 [] ≠ t) :
    processLine t s c n l = (['\t'].intercalate ((pad6 (l.splitOn '\t')).take 6), false) := by
  unfold processLine
  simp only [List.getD_eq_getElem?_getD] at hid
  simp [hcb, hid]

theorem nomatch_of_lineMatches_false (t l : List Char)
    (hcb : isCommentOrBlank l = false)
    (hid : lineMatches t l = false) :
    (pad6 (l.splitOn '\t')).getD 1 [] ≠ t := by
  unfold lineMatches at hid
  simp only [List.getD_eq_getElem?_getD] at hid ⊢
  simpa [hcb] using hid

theorem emit_six_fields_id (t s c n l : List Char)
    (hcb : isCommentOrBlank l = false)
    (hid : lineMatches t l = false)
    (h6 : (l.splitOn '\t').length = 6) :
    (processLine t s c n l).1 = l := by
  rw [processLine_of_nomatch t s c n l hcb (nomatch_of_lineMatches_false t l hcb hid)]
  have hp : pad6 (l.splitOn '\t') = l.splitOn '\t' := by
    unfold pad6
    rw [if_neg (by omega)]
  rw [hp, ← h6, List.take_length]
  exact List.intercalate_splitOn l '\t'

/-- C2 as stated is false: in a file whose single match is `T1`, the other
record line `"other"` (one field) is not emitted byte-identically — the loop
pads it to six fields. -/
theorem single_match_counterexample :
    (updateLines "T1".data "done".data "c".data "n".data
        ["pending\tT1".data, "other".data]).1
      = ["done\tT1\t\t\tc\tn".data, "other\t\t\t\t\t".data]
    ∧ "other\t\t\t\t\t".data ≠ "other".data := by
  decide

/-- C2 (amended): with exactly one matching record line `m`, the output is
the input with `m` replaced by the tab-join of
`[status, m₁, m₂, m₃, commit, note]` (`mᵢ` the padded input fields) and the
`found` flag set; every other line is re-emitted by the same loop body, which
leaves it byte-identical whenever it is a comment/blank line or a record
line with exactly 6 tab-separated fields (record lines with another field
count are re-serialized to exactly 6 fields). -/
theorem single_match_rewrite (tid st cm nt m : List Char) (l₁ l₂ : List (List Char))
    (hm : lineMatches tid m = true)
    (h₁ : ∀ l ∈ l₁, lineMatches tid l = false)
    (h₂ : ∀ l ∈ l₂, lineMatches tid l = false) :
    updateLines tid st cm nt (l₁ ++ m :: l₂)
      = (l₁.map (fun l => (processLine tid st cm nt l).1)
          ++ ['\t'].intercalate
               [st, (pad6 (m.splitOn '\t')).getD 1 [], (pad6 (m.splitOn '\t')).getD 2 [],
                (pad6 (m.splitOn '\t')).getD 3 [], cm, nt]
             :: l₂.map (fun l => (processLine tid st cm nt l).1), true)
    ∧ ∀ l ∈ l₁ ++ l₂,
        (isCommentOrBlank l = true ∨ (l.splitOn '\t').length = 6) →
          (processLine tid st cm nt l).1 = l := by
  constructor
  · rw [updateLines_eq]
    have hany : ((l₁ ++ m :: l₂).any fun l => lineMatches tid l) = true :=
      List.any_eq_true.mpr ⟨m, by simp, hm⟩
    rw [hany, List.map_append, List.map_cons, processLine_of_match tid st cm nt m hm]
  · intro l hl hcase
    have hnm : lineMatches tid l = false := by
      rcases List.mem_append.mp hl with h | h
      · exact h₁ l h
      · exact h₂ l h
    by_cases hcb : isCommentOrBlank l = true
    · rw [processLine_of_commentOrBlank tid st cm nt l hcb]
    · have hcb' : isCommentOrBlank l = false := by
        rwa [Bool.not_eq_true] at hcb
      rcases hcase with h | h
      · exact absurd h hcb
      · exact emit_six_fields_id tid st cm nt l hcb' hnm h

/-- Witness for `single_match_rewrite`: header, one `T1` record, one other
record, updating `T1`. -/
theorem single_match_rewrite_witness :
    updateLines "T1".data "done".data "c".data "n".data
        ["# queue".data, "pending\tT1\tx\ty\t\t".data, "pending\tT2\tx\ty\t\t".data]
      = (["# queue".data, "done\tT1\tx\ty\tc\tn".data, "pending\tT2\tx\ty\t\t".data], true) :=
  ((single_match_rewrite "T1".data "done".data "c".data "n".data
      "pending\tT1\tx\ty\t\t".data ["# queue".data] ["pending\tT2\tx\ty\t\t".data]
      (by decide) (by decide) (by decide)).1).trans (by decide)

/-- C8: when two or more record lines match `task_id`, the run still takes
the success path (the file is rewritten, exit 0) and every matching line —
not just the first — is rewritten with `status`, `commit`, `note` in fields
0, 4, 5. -/
theorem duplicate_matches_all_updated (content tid st cm nt : List Char) (i : Nat)
    (h2 : 2 ≤ (splitlines content).countP fun l => lineMatches tid l)
    (hi : i < (splitlines content).length)
    (hm : lineMatches tid ((splitlines content).getD i []) = true) :
    update content tid st cm nt
      = some (['\n'].intercalate (updateLines tid st cm nt (splitlines content)).1 ++ ['\n'])
    ∧ (updateLines tid st cm nt (splitlines content)).1.getD i []
      = ['\t'].intercalate
          [st, (pad6 (((splitlines content).getD i []).splitOn '\t')).getD 1 [],
           (pad6 (((splitlines content).getD i []).splitOn '\t')).getD 2 [],
           (pad6 (((splitlines content).getD i []).splitOn '\t')).getD 3 [], cm, nt] := by
  have hpos : 0 < (splitlines content).countP fun l => lineMatches tid l := by omega
  have hany : ((splitlines content).any fun l => lineMatches tid l) = true := by
    rw [List.any_eq_true]
    obtain ⟨a, ha, hpa⟩ := List.countP_pos_iff.mp hpos
    exact ⟨a, ha, hpa⟩
  constructor
  · unfold update
    rw [updateLines_eq] at *
    simp [hany]
  · have hge : (splitlines content)[i]? = some (splitlines content)[i] :=
      List.getElem?_eq_getElem hi
    have hm' : lineMatches tid (splitlines content)[i] = true := by
      rwa [List.getD_eq_getElem?_getD, hge] at hm
    rw [updateLines_eq]
    simp only [List.getD_eq_getElem?_getD, List.getElem?_map, hge, Option.map_some',
      Option.getD_some]
    rw [processLine_of_match tid st cm nt (splitlines content)[i] hm']
    simp [List.getD_eq_getElem?_getD]

/-- Witness for `duplicate_matches_all_updated`: two `T1` records; the second
one (index 1) is also rewritten. -/
theorem duplicate_matches_all_updated_witness :
    update "old\tT1\ta\tb\tc\td\nold\tT1\n".data "T1".data "done".data "cc".data "nn".data
      = some "done\tT1\ta\tb\tcc\tnn\ndone\tT1\t\t\tcc\tnn\n".data :=
  ((duplicate_matches_all_updated "old\tT1\ta\tb\tc\td\nold\tT1\n".data "T1".data
      "done".data "cc".data "nn".data 1 (by decide) (by decide) (by decide)).1).trans
    (by decide)

/-! ### Split/join membership lemmas -/

theorem no_sat_of_mem_splitOnP {α : Type*} (p : α → Bool) :
    ∀ (xs l : List α), l ∈ xs.splitOnP p → ∀ a ∈ l, p a = false := by
  intro xs
  induction xs with
  | nil =>
    intro l hl a ha
    rw [List.splitOnP_nil] at hl
    simp only [List.mem_singleton] at hl
    subst hl
    simp at ha
  | cons hd tl ih =>
    intro l hl a ha
    rw [List.splitOnP_cons] at hl
    by_cases hp : p hd = true
    · rw [if_pos hp] at hl
      rcases List.mem_cons.mp hl with rfl | hl'
      · simp at ha
      · exact ih l hl' a ha
    · rw [if_neg hp] at hl
      obtain ⟨h', t', heq⟩ := List.exists_cons_of_ne_nil (List.splitOnP_ne_nil p tl)
      rw [heq, List.modifyHead_cons] at hl
      rcases List.mem_cons.mp hl with rfl | hl'
      · rcases List.mem_cons.mp ha with rfl | ha'
        · simpa using hp
        · exact ih h' (heq ▸ List.mem_cons_self h' t') a ha'
      · exact ih l (heq ▸ List.mem_cons_of_mem h' hl') a ha

theorem not_mem_of_mem_splitOn {x : Char} {xs l : List Char}
    (h : l ∈ xs.splitOn x) : x ∉ l := by
  intro hx
  have := no_sat_of_mem_splitOnP (fun a => a == x) xs l h x hx
  simp at this

theorem mem_intersperse_of_mem {α : Type*} (sep : α) {l : α} {ls : List α}
    (h : l ∈ ls) : l ∈ ls.intersperse sep := by
  induction ls with
  | nil => simp at h
  | cons hd tl ih =>
    cases tl with
    | nil => simpa using h
    | cons b tl' =>
      rw [List.intersperse_cons₂]
      rcases List.mem_cons.mp h with rfl | h'
      · exact List.mem_cons_self _ _
      · exact List.mem_cons_of_mem _ (List.mem_cons_of_mem _ (ih h'))

theorem eq_or_mem_of_mem_intersperse {α : Type*} {sep x : α} {ls : List α}
    (h : x ∈ ls.intersperse sep) : x = sep ∨ x ∈ ls := by
  induction ls with
  | nil => simp at h
  | cons hd tl ih =>
    cases tl with
    | nil =>
      simp only [List.intersperse_single] at h
      exact Or.inr h
    | cons b tl' =>
      rw [List.intersperse_cons₂] at h
      rcases List.mem_cons.mp h with rfl | h'
      · exact Or.inr (List.mem_cons_self _ _)
      · rcases List.mem_cons.mp h' with rfl | h''
        · exact Or.inl rfl
        · rcases ih h'' with h3 | h3
          · exact Or.inl h3
          · exact Or.inr (List.mem_cons_of_mem _ h3)

theorem mem_of_mem_splitOn {x a : Char} {xs l : List Char}
    (hl : l ∈ xs.splitOn x) (ha : a ∈ l) : a ∈ xs := by
  have hxs := List.intercalate_splitOn xs x
  rw [← hxs]
  unfold List.intercalate
  rw [List.mem_flatten]
  exact ⟨l, mem_intersperse_of_mem [x] hl, ha⟩

theorem eq_or_mem_of_mem_intercalate {α : Type*} {sep x : α} {ls : List (List α)}
    (h : x ∈ [sep].intercalate ls) : x = sep ∨ ∃ l ∈ ls, x ∈ l := by
  unfold List.intercalate at h
  rw [List.mem_flatten] at h
  obtain ⟨m, hm, ham⟩ := h
  rcases eq_or_mem_of_mem_intersperse hm with rfl | hmem
  · left
    simpa using ham
  · right
    exact ⟨m, hmem, ham⟩

theorem mem_or_nil_of_mem_pad6 {l : List Char} {parts : List (List Char)}
    (h : l ∈ pad6 parts) : l ∈ parts ∨ l = [] := by
  unfold pad6 at h
  by_cases hlen : parts.length < 6
  · rw [if_pos hlen] at h
    rcases List.mem_append.mp h with h | h
    · exact Or.inl h
    · exact Or.inr (List.eq_of_mem_replicate h)
  · rw [if_neg hlen] at h
    exact Or.inl h

theorem getD_mem_pad6 (parts : List (List Char)) (k : Nat) (hk : k < (pad6 parts).length) :
    (pad6 parts).getD k [] ∈ pad6 parts := by
  rw [List.getD_eq_getElem?_getD, List.getElem?_eq_getElem hk, Option.getD_some]
  exact List.getElem_mem hk

theorem processLine_chars {t s c n l : List Char} {a : Char}
    (ha : a ∈ (processLine t s c n l).1) :
    a ∈ l ∨ a = '\t' ∨ a ∈ s ∨ a ∈ c ∨ a ∈ n := by
  by_cases hcb : isCommentOrBlank l = true
  · rw [processLine_of_commentOrBlank t s c n l hcb] at ha
    exact Or.inl ha
  · have hcb' : isCommentOrBlank l = false := by rwa [Bool.not_eq_true] at hcb
    have hpad : ∀ f ∈ pad6 (l.splitOn '\t'), ∀ b ∈ f, b ∈ l := by
      intro f hf b hb
      rcases mem_or_nil_of_mem_pad6 hf with hf' | rfl
      · exact mem_of_mem_splitOn hf' hb
      · simp at hb
    have h6 := pad6_length (l.splitOn '\t')
    by_cases hid : (pad6 (l.splitOn '\t')).getD 1 [] = t
    · have hm : lineMatches t l = true := by
        unfold lineMatches
        rw [hcb', hid]
        simp
      rw [processLine_of_match t s c n l hm] at ha
      rcases eq_or_mem_of_mem_intercalate ha with rfl | ⟨f, hf, haf⟩
      · exact Or.inr (Or.inl rfl)
      · simp only [List.mem_cons, List.not_mem_nil, or_false] at hf
        rcases hf with rfl | rfl | rfl | rfl | rfl | rfl
        · exact Or.inr (Or.inr (Or.inl haf))
        · exact Or.inl (hpad _ (getD_mem_pad6 _ 1 (by omega)) a haf)
        · exact Or.inl (hpad _ (getD_mem_pad6 _ 2 (by omega)) a haf)
        · exact Or.inl (hpad _ (getD_mem_pad6 _ 3 (by omega)) a haf)
        · exact Or.inr (Or.inr (Or.inr (Or.inl haf)))
        · exact Or.inr (Or.inr (Or.inr (Or.inr haf)))
    · rw [processLine_of_nomatch t s c n l hcb' hid] at ha
      rcases eq_or_mem_of_mem_intercalate ha with rfl | ⟨f, hf, haf⟩
      · exact Or.inr (Or.inl rfl)
      · exact Or.inl (hpad f (List.mem_of_mem_take hf) a haf)

/-! ### splitlines lemmas -/

theorem splitlinesAux_nil (acc : List Char) :
    splitlinesAux [] acc = if acc = [] then [] else [acc.reverse] := by
  rw [splitlinesAux.eq_def]

theorem splitlinesAux_crlf (rest acc : List Char) :
    splitlinesAux ('\r' :: '\n' :: rest) acc = acc.reverse :: splitlinesAux rest [] := by
  rw [splitlinesAux.eq_def]
  rfl

theorem splitlinesAux_newline (rest acc : List Char) :
    splitlinesAux ('\n' :: rest) acc = acc.reverse :: splitlinesAux rest [] := by
  rw [splitlinesAux.eq_def]
  rfl

theorem splitlinesAux_cr (rest acc : List Char) (h : ∀ rest', rest ≠ '\n' :: rest') :
    splitlinesAux ('\r' :: rest) acc = acc.reverse :: splitlinesAux rest [] := by
  rw [splitlinesAux.eq_def]
  split
  case h_1 =>
    rename_i heq
    simp at heq
  case h_2 =>
    rename_i rest1 heq
    simp only [List.cons.injEq, true_and] at heq
    exact absurd heq (h rest1)
  case h_3 =>
    rename_i rest1 heq
    simp at heq
  case h_4 =>
    rename_i rest1 hg heq
    simp only [List.cons.injEq, true_and] at heq
    subst heq
    rfl
  case h_5 =>
    rename_i c1 rest1 g1 g2 g3 heq
    simp only [List.cons.injEq] at heq
    exact absurd heq.1.symm g3

theorem splitlinesAux_cons_other (c : Char) (rest acc : List Char)
    (h1 : c ≠ '\n') (h2 : c ≠ '\r') :
    splitlinesAux (c :: rest) acc = splitlinesAux rest (c :: acc) := by
  rw [splitlinesAux.eq_def]
  split <;> simp_all

theorem splitlinesAux_no_crlf (s acc : List Char) :
    '\n' ∉ acc → '\r' ∉ acc → ∀ l ∈ splitlinesAux s acc, '\n' ∉ l ∧ '\r' ∉ l := by
  induction s, acc using splitlinesAux.induct with
  | case1 =>
    intro _ _ l hl
    rw [splitlinesAux_nil] at hl
    simp at hl
  | case2 acc hne =>
    intro h1 h2 l hl
    rw [splitlinesAux_nil, if_neg hne] at hl
    simp only [List.mem_singleton] at hl
    subst hl
    constructor <;> rw [List.mem_reverse] <;> assumption
  | case3 rest acc ih =>
    intro h1 h2 l hl
    rw [splitlinesAux_crlf] at hl
    rcases List.mem_cons.mp hl with rfl | hl'
    · constructor <;> rw [List.mem_reverse] <;> assumption
    · exact ih (by simp) (by simp) l hl'
  | case4 rest acc ih =>
    intro h1 h2 l hl
    rw [splitlinesAux_newline] at hl
    rcases List.mem_cons.mp hl with rfl | hl'
    · constructor <;> rw [List.mem_reverse] <;> assumption
    · exact ih (by simp) (by simp) l hl'
  | case5 rest acc hne ih =>
    intro h1 h2 l hl
    rw [splitlinesAux_cr rest acc (fun r hr => hne r hr)] at hl
    rcases List.mem_cons.mp hl with rfl | hl'
    · constructor <;> rw [List.mem_reverse] <;> assumption
    · exact ih (by simp) (by simp) l hl'
  | case6 c rest acc g1 g2 g3 ih =>
    intro h1 h2 l hl
    rw [splitlinesAux_cons_other c rest acc (fun e => g2 e) (fun e => g3 e)] at hl
    refine ih ?_ ?_ l hl
    · intro hx
      rcases List.mem_cons.mp hx with rfl | hx'
      · exact g2 rfl
      · exact h1 hx'
    · intro hx
      rcases List.mem_cons.mp hx with rfl | hx'
      · exact g3 rfl
      · exact h2 hx'

theorem splitlines_no_crlf (s : List Char) :
    ∀ l ∈ splitlines s, '\n' ∉ l ∧ '\r' ∉ l :=
  splitlinesAux_no_crlf s [] (by simp) (by simp)

theorem splitlinesAux_append (l : List Char) :
    ∀ (rest acc : List Char), (∀ a ∈ l, a ≠ '\n' ∧ a ≠ '\r') →
      splitlinesAux (l ++ '\n' :: rest) acc
        = (acc.reverse ++ l) :: splitlinesAux rest [] := by
  induction l with
  | nil =>
    intro rest acc _
    rw [List.nil_append, splitlinesAux_newline]
    simp
  | cons c cl ih =>
    intro rest acc hl
    have hc := hl c (List.mem_cons_self c cl)
    rw [List.cons_append, splitlinesAux_cons_other c _ acc hc.1 hc.2,
      ih rest (c :: acc) (fun a ha => hl a (List.mem_cons_of_mem c ha))]
    simp

theorem intercalate_cons₂ {α : Type*} (sep a b : List α) (tl : List (List α)) :
    sep.intercalate (a :: b :: tl) = a ++ sep ++ sep.intercalate (b :: tl) := by
  simp [List.intercalate, List.intersperse_cons₂, List.append_assoc]

theorem splitlines_intercalate (ls : List (List Char)) (hne : ls ≠ [])
    (h : ∀ l ∈ ls, ∀ a ∈ l, a ≠ '\n' ∧ a ≠ '\r') :
    splitlines (['\n'].intercalate ls ++ ['\n']) = ls := by
  induction ls with
  | nil => exact absurd rfl hne
  | cons hd tl ih =>
    cases tl with
    | nil =>
      show splitlinesAux (['\n'].intercalate [hd] ++ ['\n']) [] = [hd]
      rw [show ['\n'].intercalate [hd] = hd from by simp [List.intercalate]]
      rw [show hd ++ ['\n'] = hd ++ '\n' :: ([] : List Char) from rfl]
      rw [splitlinesAux_append hd [] [] (h hd (List.mem_cons_self _ _))]
      rw [splitlinesAux_nil]
      simp
    | cons b tl' =>
      show splitlinesAux (['\n'].intercalate (hd :: b :: tl') ++ ['\n']) [] = hd :: b :: tl'
      rw [intercalate_cons₂]
      rw [show (hd ++ ['\n'] ++ ['\n'].intercalate (b :: tl')) ++ ['\n']
            = hd ++ '\n' :: (['\n'].intercalate (b :: tl') ++ ['\n']) from by
          simp [List.append_assoc]]
      rw [splitlinesAux_append hd _ [] (h hd (List.mem_cons_self _ _))]
      simp only [List.reverse_nil, List.nil_append]
      congr 1
      have := ih (by simp) (fun l hl => h l (List.mem_cons_of_mem _ hl))
      unfold splitlines at this
      exact this

/-! ### Field structure of emitted record lines -/

theorem take6_pad6_length (parts : List (List Char)) : ((pad6 parts).take 6).length = 6 := by
  rw [List.length_take]
  have := pad6_length parts
  omega

theorem tabfree_mem_take6_pad6 {l f : List Char}
    (hf : f ∈ (pad6 (l.splitOn '\t')).take 6) : '\t' ∉ f := by
  rcases mem_or_nil_of_mem_pad6 (List.mem_of_mem_take hf) with h | rfl
  · exact not_mem_of_mem_splitOn h
  · simp

theorem tabfree_getD_pad6 (l : List Char) (k : Nat) :
    '\t' ∉ (pad6 (l.splitOn '\t')).getD k [] := by
  by_cases hk : k < (pad6 (l.splitOn '\t')).length
  · rcases mem_or_nil_of_mem_pad6 (getD_mem_pad6 _ k hk) with h | h
    · exact not_mem_of_mem_splitOn h
    · rw [h]
      simp
  · rw [List.getD_eq_getElem?_getD, List.getElem?_eq_none (by omega)]
    simp

theorem splitOn_emit_nomatch (l : List Char) :
    (['\t'].intercalate ((pad6 (l.splitOn '\t')).take 6)).splitOn '\t'
      = (pad6 (l.splitOn '\t')).take 6 := by
  apply List.splitOn_intercalate
  · intro f hf
    exact tabfree_mem_take6_pad6 hf
  · intro he
    have := take6_pad6_length (l.splitOn '\t')
    rw [he] at this
    simp at this

theorem splitOn_emit_match (s c n f1 f2 f3 : List Char)
    (hs : '\t' ∉ s) (hc : '\t' ∉ c) (hn : '\t' ∉ n)
    (h1 : '\t' ∉ f1) (h2 : '\t' ∉ f2) (h3 : '\t' ∉ f3) :
    (['\t'].intercalate [s, f1, f2, f3, c, n]).splitOn '\t' = [s, f1, f2, f3, c, n] := by
  apply List.splitOn_intercalate
  · intro x hx
    simp only [List.mem_cons, List.not_mem_nil, or_false] at hx
    rcases hx with rfl | rfl | rfl | rfl | rfl | rfl <;> assumption
  · simp

theorem emit_record_six (t s c n l : List Char)
    (hcb : isCommentOrBlank l = false)
    (hs : '\t' ∉ s) (hc : '\t' ∉ c) (hn : '\t' ∉ n) :
    ((processLine t s c n l).1.splitOn '\t').length = 6 := by
  by_cases hid : (pad6 (l.splitOn '\t')).getD 1 [] = t
  · have hm : lineMatches t l = true := by
      unfold lineMatches
      rw [hcb, hid]
      simp
    rw [processLine_of_match t s c n l hm]
    rw [splitOn_emit_match s c n _ _ _ hs hc hn (tabfree_getD_pad6 l 1)
      (tabfree_getD_pad6 l 2) (tabfree_getD_pad6 l 3)]
    rfl
  · rw [processLine_of_nomatch t s c n l hcb hid]
    rw [splitOn_emit_nomatch l]
    exact take6_pad6_length (l.splitOn '\t')

theorem emit_no_crlf (t s c n l : List Char)
    (hl : '\n' ∉ l ∧ '\r' ∉ l)
    (hs : ∀ a ∈ s, a ≠ '\n' ∧ a ≠ '\r')
    (hc : ∀ a ∈ c, a ≠ '\n' ∧ a ≠ '\r')
    (hn : ∀ a ∈ n, a ≠ '\n' ∧ a ≠ '\r') :
    ∀ a ∈ (processLine t s c n l).1, a ≠ '\n' ∧ a ≠ '\r' := by
  intro a ha
  rcases processLine_chars ha with h | h | h | h | h
  · constructor
    · intro e
      subst e
      exact hl.1 h
    · intro e
      subst e
      exact hl.2 h
  · subst h
    constructor <;> decide
  · exact hs a h
  · exact hc a h
  · exact hn a h

theorem update_some_elim (content tid st cm nt out : List Char)
    (h : update content tid st cm nt = some out) :
    ((splitlines content).any fun l => lineMatches tid l) = true
    ∧ out = ['\n'].intercalate
        ((splitlines content).map fun l => (processLine tid st cm nt l).1) ++ ['\n'] := by
  unfold update at h
  rw [updateLines_eq] at h
  simp only at h
  by_cases hany : ((splitlines content).any fun l => lineMatches tid l) = true
  · rw [if_pos hany] at h
    exact ⟨hany, (Option.some_inj.mp h).symm⟩
  · rw [if_neg hany] at h
    exact absurd h (by simp)

theorem updated_no_crlf (content tid st cm nt : List Char)
    (hst : ∀ a ∈ st, a ≠ '\n' ∧ a ≠ '\r')
    (hcm : ∀ a ∈ cm, a ≠ '\n' ∧ a ≠ '\r')
    (hnt : ∀ a ∈ nt, a ≠ '\n' ∧ a ≠ '\r') :
    ∀ l ∈ (splitlines content).map fun l => (processLine tid st cm nt l).1,
      ∀ a ∈ l, a ≠ '\n' ∧ a ≠ '\r' := by
  intro l hl
  obtain ⟨l0, hl0, rfl⟩ := List.mem_map.mp hl
  exact emit_no_crlf tid st cm nt l0 (splitlines_no_crlf content l0 hl0) hst hcm hnt

theorem splitlines_update_out (content tid st cm nt out : List Char)
    (hst : ∀ a ∈ st, a ≠ '\n' ∧ a ≠ '\r')
    (hcm : ∀ a ∈ cm, a ≠ '\n' ∧ a ≠ '\r')
    (hnt : ∀ a ∈ nt, a ≠ '\n' ∧ a ≠ '\r')
    (h : update content tid st cm nt = some out) :
    splitlines out = (splitlines content).map fun l => (processLine tid st cm nt l).1 := by
  obtain ⟨hany, hout⟩ := update_some_elim content tid st cm nt out h
  rw [hout]
  apply splitlines_intercalate
  · intro he
    rw [List.map_eq_nil_iff] at he
    rw [he] at hany
    simp at hany
  · exact updated_no_crlf content tid st cm nt hst hcm hnt

/-- C3 as stated is false: with a note containing a tab, the success path
writes a record line with 7 tab-separated fields. -/
theorem output_fields_counterexample :
    update "pending\tT1\n".data "T1".data "done".data "c".data "a\tb".data
      = some "done\tT1\t\t\tc\ta\tb\n".data
    ∧ "done\tT1\t\t\tc\ta\tb".data ∈ splitlines "done\tT1\t\t\tc\ta\tb\n".data
    ∧ isCommentOrBlank "done\tT1\t\t\tc\ta\tb".data = false
    ∧ ("done\tT1\t\t\tc\ta\tb".data.splitOn '\t').length = 7 := by
  decide

/-- C3 (amended): provided `status`, `commit` and `note` contain no tab,
LF or CR character, every record (non-comment, non-blank) line of the
written output splits into exactly 6 tab-separated fields: short input
records are padded with empty fields and fields beyond the 6th are
dropped. -/
theorem output_records_six_fields (content tid st cm nt out l : List Char)
    (hst : ∀ a ∈ st, a ≠ '\t' ∧ a ≠ '\n' ∧ a ≠ '\r')
    (hcm : ∀ a ∈ cm, a ≠ '\t' ∧ a ≠ '\n' ∧ a ≠ '\r')
    (hnt : ∀ a ∈ nt, a ≠ '\t' ∧ a ≠ '\n' ∧ a ≠ '\r')
    (hrun : update content tid st cm nt = some out)
    (hl : l ∈ splitlines out)
    (hrec : isCommentOrBlank l = false) :
    (l.splitOn '\t').length = 6 := by
  rw [splitlines_update_out content tid st cm nt out
    (fun a ha => ⟨(hst a ha).2.1, (hst a ha).2.2⟩)
    (fun a ha => ⟨(hcm a ha).2.1, (hcm a ha).2.2⟩)
    (fun a ha => ⟨(hnt a ha).2.1, (hnt a ha).2.2⟩) hrun] at hl
  obtain ⟨l0, hl0, rfl⟩ := List.mem_map.mp hl
  by_cases hcb : isCommentOrBlank l0 = true
  · rw [processLine_of_commentOrBlank tid st cm nt l0 hcb] at hrec
    simp only at hrec
    rw [hcb] at hrec
    simp at hrec
  · have hcb' : isCommentOrBlank l0 = false := by rwa [Bool.not_eq_true] at hcb
    apply emit_record_six tid st cm nt l0 hcb'
    · intro hx
      exact (hst '\t' hx).1 rfl
    · intro hx
      exact (hcm '\t' hx).1 rfl
    · intro hx
      exact (hnt '\t' hx).1 rfl

/-- Witness for `output_records_six_fields`: the rewritten record of a
successful concrete run has 6 fields. -/
theorem output_records_six_fields_witness :
    (("done\tT1\tx\ty\tc\tn".data : List Char).splitOn '\t').length = 6 :=
  output_records_six_fields "pending\tT1\tx\ty\t\t\n".data "T1".data "done".data "c".data
    "n".data "done\tT1\tx\ty\tc\tn\n".data "done\tT1\tx\ty\tc\tn".data
    (by decide) (by decide) (by decide) (by decide) (by decide) (by decide)

/-! ### Second-application behaviour of the loop body -/

theorem pad6_eq_self (parts : List (List Char)) (h : ¬parts.length < 6) :
    pad6 parts = parts := if_neg h

theorem getD_take6_pad6 (parts : List (List Char)) (k : Nat) (hk : k < 6) :
    ((pad6 parts).take 6).getD k [] = (pad6 parts).getD k [] := by
  rw [List.getD_eq_getElem?_getD, List.getD_eq_getElem?_getD, List.getElem?_take_of_lt hk]

theorem startsWithHash_cons (x : Char) (xs : List Char) (hx : x ≠ '#') :
    startsWithHash (x :: xs) = false := by
  rw [startsWithHash.eq_def]
  split <;> simp_all

theorem mem_intercalate_of_mem {α : Type*} (sep : List α) {x : α} {l : List α}
    {ls : List (List α)} (hl : l ∈ ls) (hx : x ∈ l) : x ∈ sep.intercalate ls := by
  unfold List.intercalate
  rw [List.mem_flatten]
  exact ⟨l, mem_intersperse_of_mem sep hl, hx⟩

theorem emit_match_not_commentOrBlank (s c n f1 f2 f3 : List Char)
    (hhash : startsWithHash s = false)
    (hsnb : s.all pyIsSpace = false) :
    isCommentOrBlank (['\t'].intercalate [s, f1, f2, f3, c, n]) = false := by
  obtain ⟨a, ha, hpa⟩ := List.all_eq_false.mp hsnb
  unfold isCommentOrBlank
  rw [Bool.or_eq_false_iff]
  constructor
  · cases s with
    | nil => simp at ha
    | cons s0 s' =>
      have h0 : s0 ≠ '#' := by
        intro e
        subst e
        simp [startsWithHash] at hhash
      rw [intercalate_cons₂ ['\t'] (s0 :: s') f1 [f2, f3, c, n]]
      rw [List.cons_append, List.cons_append]
      exact startsWithHash_cons s0 _ h0
  · rw [List.all_eq_false]
    exact ⟨a, mem_intercalate_of_mem ['\t'] (List.mem_cons_self _ _) ha, hpa⟩

theorem processLine_idem (t s c n l : List Char)
    (hs : '\t' ∉ s) (hc : '\t' ∉ c) (hn : '\t' ∉ n)
    (hhash : startsWithHash s = false)
    (hsnb : s.all pyIsSpace = false) :
    processLine t s c n (processLine t s c n l).1 = processLine t s c n l := by
  by_cases hcb : isCommentOrBlank l = true
  · rw [processLine_of_commentOrBlank t s c n l hcb]
    exact processLine_of_commentOrBlank t s c n l hcb
  · have hcb' : isCommentOrBlank l = false := by rwa [Bool.not_eq_true] at hcb
    by_cases hid : (pad6 (l.splitOn '\t')).getD 1 [] = t
    · have hm : lineMatches t l = true := by
        unfold lineMatches
        rw [hcb', hid]
        simp
      rw [processLine_of_match t s c n l hm]
      have hsplit : (['\t'].intercalate
            [s, (pad6 (l.splitOn '\t')).getD 1 [], (pad6 (l.splitOn '\t')).getD 2 [],
             (pad6 (l.splitOn '\t')).getD 3 [], c, n]).splitOn '\t'
          = [s, (pad6 (l.splitOn '\t')).getD 1 [], (pad6 (l.splitOn '\t')).getD 2 [],
             (pad6 (l.splitOn '\t')).getD 3 [], c, n] :=
        splitOn_emit_match s c n _ _ _ hs hc hn (tabfree_getD_pad6 l 1)
          (tabfree_getD_pad6 l 2) (tabfree_getD_pad6 l 3)
      have hps : pad6 ((['\t'].intercalate
            [s, (pad6 (l.splitOn '\t')).getD 1 [], (pad6 (l.splitOn '\t')).getD 2 [],
             (pad6 (l.splitOn '\t')).getD 3 [], c, n]).splitOn '\t')
          = [s, (pad6 (l.splitOn '\t')).getD 1 [], (pad6 (l.splitOn '\t')).getD 2 [],
             (pad6 (l.splitOn '\t')).getD 3 [], c, n] := by
        rw [hsplit]
        exact pad6_eq_self _ (by simp)
      have hm2 : lineMatches t (['\t'].intercalate
            [s, (pad6 (l.splitOn '\t')).getD 1 [], (pad6 (l.splitOn '\t')).getD 2 [],
             (pad6 (l.splitOn '\t')).getD 3 [], c, n]) = true := by
        unfold lineMatches
        rw [emit_match_not_commentOrBlank s c n _ _ _ hhash hsnb, hps]
        have hid' := hid
        simp only [List.getD_eq_getElem?_getD] at hid'
        simp [hid']
      rw [processLine_of_match t s c n _ hm2, hps]
      rfl
    · rw [processLine_of_nomatch t s c n l hcb' hid]
      by_cases hecb : isCommentOrBlank (['\t'].intercalate ((pad6 (l.splitOn '\t')).take 6)) = true
      · exact processLine_of_commentOrBlank t s c n _ hecb
      · have hecb' : isCommentOrBlank
            (['\t'].intercalate ((pad6 (l.splitOn '\t')).take 6)) = false := by
          rwa [Bool.not_eq_true] at hecb
        have hps : pad6 ((['\t'].intercalate
              ((pad6 (l.splitOn '\t')).take 6)).splitOn '\t')
            = (pad6 (l.splitOn '\t')).take 6 := by
          rw [splitOn_emit_nomatch l]
          exact pad6_eq_self _ (by rw [take6_pad6_length]; omega)
        have hid2 : (pad6 ((['\t'].intercalate
              ((pad6 (l.splitOn '\t')).take 6)).splitOn '\t')).getD 1 [] ≠ t := by
          rw [hps, getD_take6_pad6 _ 1 (by omega)]
          exact hid
        rw [processLine_of_nomatch t s c n _ hecb' hid2, hps, List.take_take]
        simp

theorem ne_nl_cr_of_not_lineBreak (a : Char) (h : pyIsLineBreak a = false) :
    a ≠ '\n' ∧ a ≠ '\r' := by
  constructor <;> intro e <;> subst e <;> simp [pyIsLineBreak] at h

theorem pyIsSpaceFull_of_pyIsSpace (c : Char) (h : pyIsSpace c = true) :
    pyIsSpaceFull c = true := by
  unfold pyIsSpace at h
  simp only [Bool.or_eq_true, decide_eq_true_eq, or_assoc] at h
  rcases h with h | h | h | h | h | h <;> subst h <;> decide

/-- C5 as stated is false: with status `"#done"` the first application
succeeds but turns the only matching record into a comment line, so the
second application with identical arguments fails (exit 1, no write)
instead of succeeding with the same content. -/
theorem idempotence_counterexample :
    update "pending\tT1\n".data "T1".data "#done".data "c".data "n".data
      = some "#done\tT1\t\t\tc\tn\n".data
    ∧ update "#done\tT1\t\t\tc\tn\n".data "T1".data "#done".data "c".data "n".data
      = none := by
  decide

/-- C5 (amended): provided `status`, `commit` and `note` contain no tab and
none of the line-boundary characters of Python `str.splitlines`
(`pyIsLineBreak`), `status` does not start with `#`, and `status` contains
at least one character that Python `str.strip` / `str.isspace` does not
treat as whitespace (`pyIsSpaceFull`), a second application of `update`
with identical arguments to the file written by a successful first
application succeeds and writes the identical content.  Under these
hypotheses the rewritten file re-reads into exactly the lines the first
run joined, so the restricted `splitlines` / `pyIsSpace` of this model
agree with the Python functions on it. -/
theorem update_idempotent (content tid st cm nt out : List Char)
    (hstF : ∀ a ∈ st, a ≠ '\t' ∧ pyIsLineBreak a = false)
    (hcmF : ∀ a ∈ cm, a ≠ '\t' ∧ pyIsLineBreak a = false)
    (hntF : ∀ a ∈ nt, a ≠ '\t' ∧ pyIsLineBreak a = false)
    (hhash : startsWithHash st = false)
    (hsnbF : st.all pyIsSpaceFull = false)
    (h1 : update content tid st cm nt = some out) :
    update out tid st cm nt = some out := by
  have hst : ∀ a ∈ st, a ≠ '\t' ∧ a ≠ '\n' ∧ a ≠ '\r' := fun a ha =>
    ⟨(hstF a ha).1, ne_nl_cr_of_not_lineBreak a (hstF a ha).2⟩
  have hcm : ∀ a ∈ cm, a ≠ '\t' ∧ a ≠ '\n' ∧ a ≠ '\r' := fun a ha =>
    ⟨(hcmF a ha).1, ne_nl_cr_of_not_lineBreak a (hcmF a ha).2⟩
  have hnt : ∀ a ∈ nt, a ≠ '\t' ∧ a ≠ '\n' ∧ a ≠ '\r' := fun a ha =>
    ⟨(hntF a ha).1, ne_nl_cr_of_not_lineBreak a (hntF a ha).2⟩
  have hsnb : st.all pyIsSpace = false := by
    obtain ⟨a, ha, hpa⟩ := List.all_eq_false.mp hsnbF
    rw [List.all_eq_false]
    exact ⟨a, ha, fun hq => hpa (pyIsSpaceFull_of_pyIsSpace a hq)⟩
  obtain ⟨hany, hout⟩ := update_some_elim content tid st cm nt out h1
  have hsp : splitlines out
      = (splitlines content).map fun l => (processLine tid st cm nt l).1 :=
    splitlines_update_out content tid st cm nt out
      (fun a ha => ⟨(hst a ha).2.1, (hst a ha).2.2⟩)
      (fun a ha => ⟨(hcm a ha).2.1, (hcm a ha).2.2⟩)
      (fun a ha => ⟨(hnt a ha).2.1, (hnt a ha).2.2⟩) h1
  have hs' : '\t' ∉ st := fun hx => (hst '\t' hx).1 rfl
  have hc' : '\t' ∉ cm := fun hx => (hcm '\t' hx).1 rfl
  have hn' : '\t' ∉ nt := fun hx => (hnt '\t' hx).1 rfl
  have hidem : ∀ l, processLine tid st cm nt (processLine tid st cm nt l).1
      = processLine tid st cm nt l :=
    fun l => processLine_idem tid st cm nt l hs' hc' hn' hhash hsnb
  have hmap : ((splitlines content).map fun l => (processLine tid st cm nt l).1).map
        (fun l => (processLine tid st cm nt l).1)
      = (splitlines content).map fun l => (processLine tid st cm nt l).1 := by
    rw [List.map_map]
    apply List.map_congr_left
    intro a _
    show (processLine tid st cm nt (processLine tid st cm nt a).1).1 = _
    rw [hidem a]
  have hany2 : (((splitlines content).map fun l => (processLine tid st cm nt l).1).any
        fun l => lineMatches tid l) = true := by
    rw [List.any_map]
    have hco : ((fun l => lineMatches tid l) ∘ fun l => (processLine tid st cm nt l).1)
        = fun l => lineMatches tid l := by
      funext a
      simp only [Function.comp_apply]
      calc lineMatches tid (processLine tid st cm nt a).1
          = (processLine tid st cm nt (processLine tid st cm nt a).1).2 :=
            (processLine_snd tid st cm nt _).symm
        _ = (processLine tid st cm nt a).2 := by rw [hidem a]
        _ = lineMatches tid a := processLine_snd tid st cm nt a
    rw [hco]
    exact hany
  unfold update
  rw [updateLines_eq]
  simp only
  rw [hsp, hmap, hany2, if_pos rfl]
  rw [← hout]

/-- Witness for `update_idempotent` on a concrete successful run. -/
theorem update_idempotent_witness :
    update "done\tT1\tx\ty\tc\tn\n".data "T1".data "done".data "c".data "n".data
      = some "done\tT1\tx\ty\tc\tn\n".data :=
  update_idempotent "pending\tT1\tx\ty\t\t\n".data "T1".data "done".data "c".data "n".data
    "done\tT1\tx\ty\tc\tn\n".data (by decide) (by decide) (by decide) (by decide) (by decide)
    (by decide)

end LintQueueUpdate
